import Mathlib

open List

/-!
Verification development for the SGF tree parser/serializer/editor
(`src/sgf_tree.ts`).  The TypeScript class `SgfTree` is shallowly embedded:

* JavaScript strings are modelled as `Str := List Char` (the scanner and
  tokenizer iterate code points, which `Char` models exactly);
* the JS property object (`SgfProperties`) is modelled as an insertion-ordered
  association list `List (Str × SgfValue)`; lookup and overwrite keep the
  original key position, as JS objects do for non-numeric string keys;
* the mutable parent back-reference is a scanning device only (the spec calls
  it an implicit call stack), so the single-pass scanner `parseBranches` is
  embedded with an explicit stack of frames; the tree type itself carries no
  parent pointer and ownership is root-to-children, as the spec prescribes;
* `toSgf` dispatches on the absence of a parent; the embedding splits the two
  branches into `SgfTree.toSgfRoot` (the `!this.parent` branch) and
  `SgfTree.toSgf` (the non-root branches, which are the only ones reachable
  from recursive calls, since every child has a parent);
* methods that the source leaves undefined on invalid input (reading
  `.first()` of an empty children array and then dereferencing, or ascending
  past the root) are embedded with `Option`, `none` marking the crash;
* coordinates are modelled with `Nat`; the source never defines behaviour for
  negative or fractional coordinates (the spec declares coordinate validity a
  caller obligation).
-/

abbrev Str : Type := List Char

/-- A property value of one SGF node: either a single string or an ordered
list of strings, as in the source union type `string | string[]`. -/
inductive SgfValue where
  | one (s : Str)
  | many (l : List Str)
deriving DecidableEq, Repr

/-- The property map of one node (`SgfProperties` in the source): an
insertion-ordered association list from property codes to values. -/
abbrev SgfProperties : Type := List (Str × SgfValue)

/-- Object property read, `nodeData[currentKey]` in the source. -/
def propLookup : SgfProperties → Str → Option SgfValue
  | [], _ => none
  | (k, v) :: rest, key => if k = key then some v else propLookup rest key

/-- Object property write, `nodeData[currentKey] = v` in the source: an
existing key keeps its position, a new key is appended, as JS objects do. -/
def propSet : SgfProperties → Str → SgfValue → SgfProperties
  | [], key, v => [(key, v)]
  | (k, w) :: rest, key, v =>
    if k = key then (k, v) :: rest else (k, w) :: propSet rest key v

/-- JS truthiness of `nodeData[currentKey]`: `undefined` and the empty string
are falsy, every non-empty string and every array is truthy. -/
def jsTruthy : Option SgfValue → Bool
  | none => false
  | some (.one s) => !s.isEmpty
  | some (.many _) => true

/-- Modelled from the spec: the array helper `first` of `src/array`, which is
imported by the source file but is not among the source files given (the spec
lists it as an external collaborator returning the first element).  On an
empty list the spec's §4.3 edge case (zero move strings leave the node's data
as parsed from an empty string) fixes the value to the empty string. -/
def jsFirst : List Str → Str
  | [] => []
  | s :: _ => s

/-- The default `Array.prototype.join()` (and array-to-string coercion) of
JS: elements separated by a comma. -/
def joinComma : List Str → Str
  | [] => []
  | [s] => s
  | s :: ss => s ++ ',' :: joinComma ss

/-- One character of the `splitBrackets` scan: `[` flushes the accumulated
text and starts a value token beginning with `[`, `]` flushes the value
token, every other character accumulates. -/
def splitBracketsStep (acc : List Str × Str) (c : Char) : List Str × Str :=
  if c = '[' then (acc.1 ++ [acc.2], ['['])
  else if c = ']' then (acc.1 ++ [acc.2], [])
  else (acc.1, acc.2 ++ [c])

/-- `splitBrackets` of the source: single scan of a node's raw property text.
The text accumulated after the last flush is discarded. -/
def splitBrackets (s : Str) : List Str :=
  (s.foldl splitBracketsStep ([], [])).1

/-- One token of the `parseNodeData` loop, acting on the pair of the current
key and the property map built so far: a token containing `[` contributes its
tail as a value for the current key (set / promote-to-pair / append,
following the JS truthiness test), any other token becomes the new current
key. -/
def parseNodeDataStep (acc : Str × SgfProperties) (c : Str) : Str × SgfProperties :=
  if c.contains '[' then
    let newDatum := c.drop 1
    (acc.1,
      if jsTruthy (propLookup acc.2 acc.1) then
        match propLookup acc.2 acc.1 with
        | some (.one prev) => propSet acc.2 acc.1 (.many [prev, newDatum])
        | some (.many l) => propSet acc.2 acc.1 (.many (l ++ [newDatum]))
        | none => propSet acc.2 acc.1 (.one newDatum)
      else propSet acc.2 acc.1 (.one newDatum))
  else (c, acc.2)

/-- `parseNodeData` of the source: folds the token list of `splitBrackets`
with `parseNodeDataStep`, the key initialized to `first` of the token
list. -/
def parseNodeData (s : Str) : SgfProperties :=
  let splitData := splitBrackets s
  (splitData.foldl parseNodeDataStep (jsFirst splitData, ([] : SgfProperties))).2

/-- String image of one property value in `nodeDataToString`: a single string
is itself, an array is coerced by JS to its comma-joined elements. -/
def sgfValueToString : SgfValue → Str
  | .one s => s
  | .many l => joinComma l

/-- `nodeDataToString` of the source: `Object.entries(props)` mapped to
`k[v]` and concatenated. -/
def nodeDataToString (props : SgfProperties) : Str :=
  (props.map (fun kv => kv.1 ++ '[' :: sgfValueToString kv.2 ++ [']'])).foldl
    (fun p v => p ++ v) []

/-- `String.prototype.split(";")` of JS for the one-character separator:
splitting the empty string gives `[""]`. -/
def splitSemi : Str → List Str
  | [] => [[]]
  | c :: rest =>
    if c = ';' then [] :: splitSemi rest
    else
      match splitSemi rest with
      | [] => [[c]]
      | s :: ss => (c :: s) :: ss

/-- The tree node of the source class `SgfTree`: parsed properties, ordered
children, and the raw property text (`dataAsString`).  The parent
back-reference of the source is not part of the value; see the header. -/
inductive SgfTree where
  | mk (data : SgfProperties) (children : List SgfTree) (dataAsString : Str)

instance : Inhabited SgfTree := ⟨.mk [] [] []⟩

def SgfTree.data : SgfTree → SgfProperties
  | .mk d _ _ => d

def SgfTree.children : SgfTree → List SgfTree
  | .mk _ ch _ => ch

def SgfTree.dataAsString : SgfTree → Str
  | .mk _ _ s => s

/-- The chain built by the loop of `parseBranch`: each remaining move string
becomes a single-child node (the source constructor, given a non-empty raw
string, sets `data` to `parseNodeData` of it), and the saved original
children are reattached at the tail. -/
def buildChain (children0 : List SgfTree) : List Str → List SgfTree
  | [] => children0
  | s :: rest => [.mk (parseNodeData s) (buildChain children0 rest) s]

/-- `parseBranch` of the source: split the node's raw text on `;`, discard
empty segments, keep the first segment as the node's own raw text, expand the
remaining segments into a chain of single-child nodes and reattach the
original children at the end.  The `data` field is untouched here (the caller
recomputes it afterwards, as in the source). -/
def SgfTree.parseBranch : SgfTree → SgfTree
  | .mk d ch raw =>
    let nodesAsString := (splitSemi raw).filter (fun m => m ≠ [])
    .mk d (buildChain ch nodesAsString.tail) (jsFirst nodesAsString)

/-- One ancestor level of the scanner: the `dataAsString` the node had when
it opened its current child, and its previously completed children.  This is
the explicit-stack rendering of the parent back-reference chain. -/
structure Frame where
  dataAsString : Str
  children : List SgfTree

/-- The mutable state of `parseBranches`: the ancestor stack, the node under
construction, and `currentString`. -/
structure ScanState where
  stack : List Frame
  cur : Frame
  currentString : Str

/-- The whole `)` finalization of the scanner: run `parseBranch` on the node
made of the accumulated children and raw text (its `data` is the `{}` it was
constructed with), then recompute `data` from the resulting raw text, as the
two consecutive statements of the source's `)` case do. -/
def finalizeNode (ch : List SgfTree) (raw : Str) : SgfTree :=
  let closed := SgfTree.parseBranch (.mk [] ch raw)
  .mk (parseNodeData closed.dataAsString) closed.children closed.dataAsString

/-- One character of the `parseBranches` loop.  `(` saves the accumulated
text into the current node and descends into a fresh child; `)` finalizes the
current node with `finalizeNode`, appends it to the parent and ascends,
restoring `currentString` from the parent; any other character accumulates.
`)` with no parent is the source's crash (`parent!` on the root), hence
`none`. -/
def scanStep (st : ScanState) (c : Char) : Option ScanState :=
  if c = '(' then
    some ⟨⟨st.currentString, st.cur.children⟩ :: st.stack, ⟨[], []⟩, []⟩
  else if c = ')' then
    match st.stack with
    | [] => none
    | p :: rest =>
      some ⟨rest,
        ⟨p.dataAsString, p.children ++ [finalizeNode st.cur.children st.currentString]⟩,
        p.dataAsString⟩
  else
    some ⟨st.stack, st.cur, st.currentString ++ [c]⟩

/-- The whole scanning loop of `parseBranches`. -/
def runScan (l : List Char) (st : ScanState) : Option ScanState :=
  List.foldlM scanStep st l

/-- `parseBranches` of the source: scan from a fresh empty root and return
the node that is current when the input ends (the root for balanced input).
Its `data` is the `{}` it was constructed with, its raw text is the last
value stored in the node. -/
def SgfTree.parseBranches (s : Str) : Option SgfTree :=
  (runScan s ⟨[], ⟨[], []⟩, []⟩).map
    (fun st => SgfTree.mk [] st.cur.children st.cur.dataAsString)

/-- `sgfCleanup` of the source: trim, then remove every newline and tab. -/
def sgfCleanup (s : Str) : Str :=
  ((((s.dropWhile Char.isWhitespace).reverse.dropWhile Char.isWhitespace).reverse).filter
      (fun c => c ≠ '\n')).filter
    (fun c => c ≠ '\t')

/-- `parseSgf` of the source. -/
def SgfTree.parseSgf (s : Str) : Option SgfTree :=
  SgfTree.parseBranches (sgfCleanup s)

mutual

/-- `toSgf` of the source, non-root branches (every recursive call is on a
child, which has a parent): a leaf is its raw text, a single child continues
the chain after `;`, several children are appended as `(;…)` groups by the
`reduce` rendered as `toSgfGroups`. -/
def SgfTree.toSgf : SgfTree → Str
  | .mk _ [] s => s
  | .mk _ [c] s => s ++ ';' :: SgfTree.toSgf c
  | .mk _ (c1 :: c2 :: cs) s => s ++ toSgfGroups [] (c1 :: c2 :: cs)

/-- The `reduce((p, c) => p + "(;" + c + ")", "")` of the several-children
branch of `toSgf`, with its accumulator explicit. -/
def toSgfGroups : Str → List SgfTree → Str
  | acc, [] => acc
  | acc, c :: cs => toSgfGroups (acc ++ ('(' :: ';' :: SgfTree.toSgf c ++ [')'])) cs

end

/-- `toSgf` of the source, the `!this.parent` branch taken by the root: each
child serialized, wrapped in `(;…)`, and joined by `.join()` — the JS
default, which separates with commas. -/
def SgfTree.toSgfRoot (t : SgfTree) : Str :=
  joinComma (t.children.map (fun c => '(' :: ';' :: SgfTree.toSgf c ++ [')']))

/-- `SgfTreeJson` of the source: the `{data, children}` projection. -/
inductive SgfTreeJson where
  | mk (data : SgfProperties) (children : List SgfTreeJson)

mutual

/-- `toJson` of the source. -/
def SgfTree.toJson : SgfTree → SgfTreeJson
  | .mk d ch _ => .mk d (toJsonList ch)

def toJsonList : List SgfTree → List SgfTreeJson
  | [] => []
  | c :: cs => SgfTree.toJson c :: toJsonList cs

end

mutual

/-- Number of nodes of a `toJson` image (an analysis helper, used to tell two
projections apart). -/
def jsonSize : SgfTreeJson → Nat
  | .mk _ ch => 1 + jsonListSize ch

def jsonListSize : List SgfTreeJson → Nat
  | [] => 0
  | c :: cs => jsonSize c + jsonListSize cs

end

/-- The `{down, right}` coordinate of the tree editor. -/
structure TreeCoordinates where
  down : Nat
  right : Nat

/-- The editing pattern of the source: `getDownToParent` walks
`children.first()` `down` times and the edit mutates the reached node's
children in place.  In the pure embedding the walk rebuilds the spine; a step
on a node with no children is the source's undefined dereference, hence
`none`. -/
def modifyAtDown : SgfTree → Nat → (SgfTree → SgfTree) → Option SgfTree
  | t, 0, f => some (f t)
  | .mk d (c :: cs) s, n + 1, f =>
    (modifyAtDown c n f).map (fun c2 => SgfTree.mk d (c2 :: cs) s)
  | .mk _ [] _, _ + 1, _ => none

/-- `Array.prototype.splice(i, 0, x)`: insert at `i`, clamped to the length. -/
def spliceInsert (l : List SgfTree) (i : Nat) (x : SgfTree) : List SgfTree :=
  l.take i ++ x :: l.drop i

/-- `Array.prototype.splice(i, 1)`: delete one element at `i` when present. -/
def spliceDelete (l : List SgfTree) (i : Nat) : List SgfTree :=
  l.take i ++ l.drop (i + 1)

/-- `add` of the source: descend `down` levels, then splice the new node into
the children at index `right - 1`. -/
def SgfTree.add (t node : SgfTree) (coords : TreeCoordinates) : Option SgfTree :=
  modifyAtDown t coords.down
    (fun p => SgfTree.mk p.data (spliceInsert p.children (coords.right - 1) node) p.dataAsString)

/-- `remove` of the source: descend, then delete the child at `right - 1`
when `right` is truthy; `right == 0` leaves the node alone. -/
def SgfTree.remove (t : SgfTree) (coords : TreeCoordinates) : Option SgfTree :=
  modifyAtDown t coords.down
    (fun p =>
      if coords.right ≠ 0 then
        SgfTree.mk p.data (spliceDelete p.children (coords.right - 1)) p.dataAsString
      else p)

/-- `shift` of the source: descend, then swap the child at `right - 1` with
its left (`right - 2`) or right (`right`) neighbour, reading both before
writing, as the source does. -/
def SgfTree.shift (t : SgfTree) (coords : TreeCoordinates) (left : Bool) : Option SgfTree :=
  modifyAtDown t coords.down
    (fun p =>
      let r := coords.right
      let child := p.children.getD (r - 1) default
      if left then
        let leftChild := p.children.getD (r - 2) default
        SgfTree.mk p.data ((p.children.set (r - 2) child).set (r - 1) leftChild) p.dataAsString
      else
        let rightChild := p.children.getD r default
        SgfTree.mk p.data ((p.children.set r child).set (r - 1) rightChild) p.dataAsString)

/-- Read-only version of the `down` descent (an analysis helper mirroring
`getDownToParent`). -/
def getAtDown : SgfTree → Nat → Option SgfTree
  | t, 0 => some t
  | .mk _ (c :: _) _, n + 1 => getAtDown c n
  | .mk _ [] _, _ + 1 => none

/-- Replace the node reached by the `down` descent (an analysis helper; on a
path that falls off the tree it changes nothing). -/
def replaceAtDown : SgfTree → Nat → SgfTree → SgfTree
  | _, 0, q => q
  | .mk d (c :: cs) s, n + 1, q => .mk d (replaceAtDown c n q :: cs) s
  | .mk d [] s, _ + 1, _ => .mk d [] s

/-- The source constructor: given `data` (always a truthy object) and an
empty raw string, the raw string is derived with `nodeDataToString`;
given a non-empty raw string, `data` is derived with `parseNodeData`. -/
def SgfTree.create (data : SgfProperties) (children : List SgfTree) (dataAsString : Str) :
    SgfTree :=
  if dataAsString = [] then .mk data children (nodeDataToString data)
  else .mk (parseNodeData dataAsString) children dataAsString

/-- The new node inserted in the coordinate-add scenario of the spec. -/
def c5NewNode : SgfTree := .mk [("C".toList, .one "x".toList)] [] "C[x]".toList

/-- The `W[bb]` leaf of the branching example `"(;B[aa](;W[bb])(;W[cc]))"`. -/
def wbbNode : SgfTree := .mk [("W".toList, .one "bb".toList)] [] "W[bb]".toList

/-- The `W[cc]` leaf of the branching example. -/
def wccNode : SgfTree := .mk [("W".toList, .one "cc".toList)] [] "W[cc]".toList

/-- The `B[aa]` branch node of the branching example. -/
def bNode : SgfTree := .mk [("B".toList, .one "aa".toList)] [wbbNode, wccNode] "B[aa]".toList

/-- The root of the branching example (as `parseSgf` produces it). -/
def c6Tree : SgfTree := .mk [] [bNode] []

mutual

/-- The payload of every node of a tree, in preorder: its parsed properties
together with its raw text (an analysis helper for frame conditions). -/
def decs : SgfTree → List (SgfProperties × Str)
  | .mk d ch s => (d, s) :: decsList ch

def decsList : List SgfTree → List (SgfProperties × Str)
  | [] => []
  | c :: cs => decs c ++ decsList cs

end

/-- The text part of a node's serialization: the raw texts along the maximal
single-child chain, joined by `;` (an analysis view of `toSgf`). -/
def chainText : SgfTree → Str
  | .mk _ [] s => s
  | .mk _ [c] s => s ++ ';' :: chainText c
  | .mk _ (_ :: _ :: _) s => s

/-- The raw texts along the maximal single-child chain, as a list (an
analysis view). -/
def chainSegs : SgfTree → List Str
  | .mk _ [] s => [s]
  | .mk _ [c] s => s :: chainSegs c
  | .mk _ (_ :: _ :: _) s => [s]

/-- The branch children at the end of the maximal single-child chain (an
analysis view). -/
def tailGroups : SgfTree → List SgfTree
  | .mk _ [] _ => []
  | .mk _ [c] _ => tailGroups c
  | .mk _ (c1 :: c2 :: cs) _ => c1 :: c2 :: cs

/-- The concatenation of the `(;…)` serializations of a list of trees (the
closed form of `toSgfGroups`). -/
def groupsConcat : List SgfTree → Str
  | [] => []
  | g :: gs => ('(' :: ';' :: SgfTree.toSgf g ++ [')']) ++ groupsConcat gs

/-- A character that can sit in the raw text of a parsed node: not a
parenthesis (the scanner consumed those), not a semicolon (the chain
expansion split on those), not a newline or tab (the cleanup removed
those). -/
def cleanChar (c : Char) : Prop :=
  c ≠ '(' ∧ c ≠ ')' ∧ c ≠ ';' ∧ c ≠ '\n' ∧ c ≠ '\t'

/-- A character that can sit in the scanner's accumulated text: not a
parenthesis, newline or tab (semicolons do occur there). -/
def plainChar (c : Char) : Prop :=
  c ≠ '(' ∧ c ≠ ')' ∧ c ≠ '\n' ∧ c ≠ '\t'

/-- The invariant every non-root node of a parser output satisfies: its raw
text is made of clean characters and its `data` is the parse of its raw
text, recursively. -/
inductive PInv : SgfTree → Prop where
  | mk {d : SgfProperties} {ch : List SgfTree} {s : Str} :
      (∀ c ∈ s, cleanChar c) → d = parseNodeData s →
      (∀ t ∈ ch, PInv t) → PInv (.mk d ch s)

/-- `PInv` strengthened with non-empty raw text, recursively: the condition
under which serialization is re-parse stable. -/
inductive StableInv : SgfTree → Prop where
  | mk {d : SgfProperties} {ch : List SgfTree} {s : Str} :
      (∀ c ∈ s, cleanChar c) → s ≠ [] → d = parseNodeData s →
      (∀ t ∈ ch, StableInv t) → StableInv (.mk d ch s)

mutual

/-- Decides that a node and all its descendants have non-empty raw text. -/
def nodeNonempty : SgfTree → Bool
  | .mk _ ch s => (!s.isEmpty) && childrenNonempty ch

/-- Decides `nodeNonempty` for every member of a child list. -/
def childrenNonempty : List SgfTree → Bool
  | [] => true
  | c :: cs => nodeNonempty c && childrenNonempty cs

end

/-- The scanner-state invariant: the accumulated text and every saved raw
text are plain, and every completed child everywhere satisfies `PInv`. -/
def StInv (st : ScanState) : Prop :=
  (∀ c ∈ st.currentString, plainChar c) ∧
  (∀ fr ∈ st.stack, (∀ c ∈ fr.dataAsString, plainChar c) ∧ ∀ u ∈ fr.children, PInv u) ∧
  (∀ u ∈ st.cur.children, PInv u)

/-- The tree `parseSgf` yields on the round-trip counterexample
`"(;(;B[aa]))"`: its level-one node is empty (raw text `""`) with one
child. -/
def cexTree0 : SgfTree :=
  .mk [] [.mk [] [.mk [("B".toList, .one "aa".toList)] [] "B[aa]".toList] []] []

/-- The tree obtained by re-parsing the serialization `"(;;B[aa])"` of
`cexTree0`: the empty node has been swallowed by the chain text. -/
def cexTree1 : SgfTree :=
  .mk [] [.mk [("B".toList, .one "aa".toList)] [] "B[aa]".toList] []

/-- The tree parsed from `"(;B[aa];W[bb])"`, used to witness the amended
round-trip theorem. -/
def c1WitnessTree : SgfTree :=
  .mk [] [.mk [("B".toList, .one "aa".toList)]
    [.mk [("W".toList, .one "bb".toList)] [] "W[bb]".toList] "B[aa]".toList] []

/-- C4: parsing `"(;B[aa];W[bb])"` yields a root (empty properties) with
exactly one child carrying `B ↦ "aa"`, whose only child carries `W ↦ "bb"`
and has no children: the semicolon chain expands into single-child nodes. -/
theorem C4_sequence_expansion :
    SgfTree.parseSgf "(;B[aa];W[bb])".toList =
      some (.mk [] [.mk [("B".toList, .one "aa".toList)]
        [.mk [("W".toList, .one "bb".toList)] [] "W[bb]".toList] "B[aa]".toList] []) := rfl

/-- C3: evaluating the node parser at the claim's input `"AB[aa][bb][cc]"`.
The tokenizer flushes an empty text token between every `][` pair, the
parser takes that empty token as the new current key, so the result maps
`AB` to the single string `"aa"` and the empty-string key to
`["bb","cc"]` — not `AB ↦ ["aa","bb","cc"]` as the claim (and the spec's
testable property) states.  The single-value half, `"AB[aa]" ↦ AB ↦ "aa"`,
does hold. -/
theorem C3_multivalue_parse_eval :
    parseNodeData "AB[aa][bb][cc]".toList =
      [("AB".toList, .one "aa".toList), ([], .many ["bb".toList, "cc".toList])] ∧
    parseNodeData "AB[aa]".toList = [("AB".toList, .one "aa".toList)] ∧
    parseNodeData "AB[aa][bb][cc]".toList ≠
      [("AB".toList, .many ["aa".toList, "bb".toList, "cc".toList])] :=
  ⟨rfl, rfl, by decide⟩

/-- C2: evaluating root serialization on the tree parsed from
`"(;B[aa])(;W[bb])"`.  The source's `.join()` uses the JS default separator,
so a comma appears between the two groups, contradicting the claim that the
groups are concatenated with no separator. -/
theorem C2_root_join_eval :
    (SgfTree.parseSgf "(;B[aa])(;W[bb])".toList).map SgfTree.toSgfRoot =
      some "(;B[aa]),(;W[bb])".toList ∧
    (SgfTree.parseSgf "(;B[aa])(;W[bb])".toList).map SgfTree.toSgfRoot ≠
      some "(;B[aa])(;W[bb])".toList :=
  ⟨rfl, by decide⟩

/-- C9: evaluating the constructor at a property map with a multi-value
list.  The derived raw text is `"AB[aa,bb]"` (JS coerces the array with
commas), and parsing that raw text yields the single string `"aa,bb"`, not
the original list: the constructor-time derivation does not round-trip for
multi-value keys, contradicting the claim and the spec's invariant. -/
theorem C9_constructor_roundtrip_eval :
    (SgfTree.create [("AB".toList, .many ["aa".toList, "bb".toList])] [] []).dataAsString =
      "AB[aa,bb]".toList ∧
    parseNodeData
        (SgfTree.create [("AB".toList, .many ["aa".toList, "bb".toList])] [] []).dataAsString =
      [("AB".toList, .one "aa,bb".toList)] ∧
    parseNodeData
        (SgfTree.create [("AB".toList, .many ["aa".toList, "bb".toList])] [] []).dataAsString ≠
      [("AB".toList, .many ["aa".toList, "bb".toList])] :=
  ⟨rfl, rfl, by decide⟩

/-- C5 counterexample: starting from `"(;B[aa];W[bb])"`, after
`add(newNode, {down:1, right:2})` the reached `B[aa]` node has exactly the
two children `W[bb]` (still first) and the new node (second).  There is no
third position, so the claim's "pushing W[bb] to the third position" is
false at this input. -/
theorem C5_counterexample :
    ((SgfTree.parseSgf "(;B[aa];W[bb])".toList).bind
        (fun t => SgfTree.add t c5NewNode ⟨1, 2⟩)).map
      (fun r => (r.children.headD default).children.map SgfTree.dataAsString) =
      some ["W[bb]".toList, "C[x]".toList] := rfl

/-- C5 (amended): starting from `"(;B[aa];W[bb])"`,
`add(newNode, {down:1, right:2})` inserts the new node as the second child
of the `B[aa]` node, `W[bb]` remaining the first child, and leaves the
`B[aa]` node's own properties and raw text unchanged. -/
theorem C5_amended_insert_second :
    (SgfTree.parseSgf "(;B[aa];W[bb])".toList).bind
        (fun t => SgfTree.add t c5NewNode ⟨1, 2⟩) =
      some (.mk [] [.mk [("B".toList, .one "aa".toList)]
        [.mk [("W".toList, .one "bb".toList)] [] "W[bb]".toList, c5NewNode]
        "B[aa]".toList] []) := rfl

/-- C7: when a node's raw text splits into zero non-empty move strings, the
chain expansion completes and leaves the node with empty raw text, with its
children untouched, and its recomputed data is the parse of the empty
string, which is the empty property map. -/
theorem C7_zero_move_strings (ch : List SgfTree) (raw : Str)
    (h : (splitSemi raw).filter (fun m => m ≠ []) = []) :
    (SgfTree.parseBranch (.mk [] ch raw)).dataAsString = [] ∧
    (SgfTree.parseBranch (.mk [] ch raw)).children = ch ∧
    parseNodeData (SgfTree.parseBranch (.mk [] ch raw)).dataAsString = parseNodeData [] ∧
    parseNodeData [] = [] := by
  simp only [SgfTree.parseBranch, h]
  exact ⟨rfl, rfl, rfl, rfl⟩

/-- Witness for C7 at the raw text `";"` (which filters to zero move
strings) and a concrete child list. -/
theorem C7_zero_move_strings_witness :
    (splitSemi ";".toList).filter (fun m => m ≠ []) = [] ∧
    ((SgfTree.parseBranch (.mk [] [c5NewNode] ";".toList)).dataAsString = [] ∧
      (SgfTree.parseBranch (.mk [] [c5NewNode] ";".toList)).children = [c5NewNode] ∧
      parseNodeData (SgfTree.parseBranch (.mk [] [c5NewNode] ";".toList)).dataAsString =
        parseNodeData [] ∧
      parseNodeData [] = []) :=
  ⟨rfl, C7_zero_move_strings [c5NewNode] ";".toList rfl⟩

/-- Auxiliary for C10: characters that are neither `[` nor `]` only grow the
discarded accumulator of the `splitBrackets` scan; the flushed token list is
unchanged. -/
theorem splitBracketsStep_no_flush (t : Str) (h : ∀ c ∈ t, c ≠ '[' ∧ c ≠ ']') :
    ∀ st : List Str × Str, (t.foldl splitBracketsStep st).1 = st.1 := by
  induction t with
  | nil => intro st; rfl
  | cons c rest ih =>
    intro st
    have hc := h c (List.mem_cons_self c rest)
    have hrest : ∀ c ∈ rest, c ≠ '[' ∧ c ≠ ']' :=
      fun d hd => h d (List.mem_cons_of_mem c hd)
    simp only [List.foldl_cons]
    rw [ih hrest]
    simp [splitBracketsStep, hc.1, hc.2]

/-- Auxiliary: a successful read-only descent makes the rebuilt edit concrete
in terms of the reached node. -/
theorem modifyAtDown_eq_replace (f : SgfTree → SgfTree) :
    ∀ (d : Nat) (t p : SgfTree), getAtDown t d = some p →
      modifyAtDown t d f = some (replaceAtDown t d (f p)) := by
  intro d
  induction d with
  | zero =>
    intro t p h
    cases t with
    | mk dt ch s =>
      simp only [getAtDown, Option.some.injEq] at h
      subst h
      simp [modifyAtDown, replaceAtDown]
  | succ n ih =>
    intro t p h
    cases t with
    | mk dt ch s =>
      cases ch with
      | nil => simp [getAtDown] at h
      | cons c cs =>
        simp only [getAtDown] at h
        simp only [modifyAtDown, replaceAtDown, ih c p h]
        rfl

/-- Auxiliary: writing back the node that the descent read leaves the tree
unchanged. -/
theorem replaceAtDown_self :
    ∀ (d : Nat) (t p : SgfTree), getAtDown t d = some p →
      replaceAtDown t d p = t := by
  intro d
  induction d with
  | zero =>
    intro t p h
    cases t with
    | mk dt ch s =>
      simp only [getAtDown, Option.some.injEq] at h
      subst h
      simp [replaceAtDown]
  | succ n ih =>
    intro t p h
    cases t with
    | mk dt ch s =>
      cases ch with
      | nil => simp [getAtDown] at h
      | cons c cs =>
        simp only [getAtDown] at h
        simp only [replaceAtDown, ih c p h]

/-- Auxiliary: the splice-out of one element is `List.eraseIdx`. -/
theorem spliceDelete_eq_eraseIdx :
    ∀ (l : List SgfTree) (i : Nat), spliceDelete l i = l.eraseIdx i := by
  intro l
  induction l with
  | nil => intro i; cases i <;> rfl
  | cons x xs ih =>
    intro i
    cases i with
    | zero => simp [spliceDelete, List.eraseIdx]
    | succ n =>
      simp only [spliceDelete, List.take_succ_cons, List.drop_succ_cons,
        List.eraseIdx_cons_succ, List.cons_append, List.cons.injEq, true_and]
      exact ih n

/-- C6: when the `down` descent succeeds (the validity the source assumes),
`remove` rewrites exactly the reached node: for non-zero `right` its child at
index `right - 1` is deleted and nothing else changes, and for `right = 0`
the whole tree is returned unchanged. -/
theorem C6_remove_semantics (t p : SgfTree) (d r : Nat)
    (h : getAtDown t d = some p) :
    SgfTree.remove t ⟨d, r⟩ =
      some (replaceAtDown t d
        (if r = 0 then p
         else SgfTree.mk p.data (p.children.eraseIdx (r - 1)) p.dataAsString)) ∧
    (r = 0 → SgfTree.remove t ⟨d, r⟩ = some t) := by
  constructor
  · unfold SgfTree.remove
    rw [modifyAtDown_eq_replace _ d t p h]
    by_cases hr : r = 0
    · simp [hr]
    · simp [hr, spliceDelete_eq_eraseIdx]
  · intro hr
    unfold SgfTree.remove
    rw [modifyAtDown_eq_replace _ d t p h]
    simp [hr, replaceAtDown_self d t p h]

/-- Witness for C6 at the branching example: descending one level reaches
the `B[aa]` node; `right = 1` deletes its first variation and `right = 0`
returns the tree unchanged. -/
theorem C6_remove_semantics_witness :
    getAtDown c6Tree 1 = some bNode ∧
    SgfTree.remove c6Tree ⟨1, 1⟩ =
      some (replaceAtDown c6Tree 1
        (if (1 : Nat) = 0 then bNode
         else SgfTree.mk bNode.data (bNode.children.eraseIdx 0) bNode.dataAsString)) ∧
    SgfTree.remove c6Tree ⟨1, 0⟩ = some c6Tree :=
  ⟨rfl, (C6_remove_semantics c6Tree bNode 1 1 rfl).1,
    (C6_remove_semantics c6Tree bNode 1 0 rfl).2 rfl⟩

/-- Auxiliary: `decsList` distributes over append. -/
theorem decsList_append :
    ∀ xs ys : List SgfTree, decsList (xs ++ ys) = decsList xs ++ decsList ys := by
  intro xs ys
  induction xs with
  | nil => rfl
  | cons c cs ih =>
    show decs c ++ decsList (cs ++ ys) = decs c ++ decsList cs ++ decsList ys
    rw [ih, List.append_assoc]

/-- Auxiliary: permuting a child list permutes its payload list. -/
theorem decsList_perm {l l2 : List SgfTree} (h : l.Perm l2) :
    (decsList l).Perm (decsList l2) := by
  induction h with
  | nil => exact .refl _
  | cons x _ ih => exact ih.append_left (decs x)
  | swap x y l =>
    show (decs y ++ (decs x ++ decsList l)).Perm (decs x ++ (decs y ++ decsList l))
    rw [← List.append_assoc, ← List.append_assoc]
    exact List.perm_append_comm.append_right (decsList l)
  | trans _ _ ih1 ih2 => exact ih1.trans ih2

/-- Auxiliary: replacing the node reached by a successful descent exchanges
exactly that node's payloads for the new node's payloads. -/
theorem decs_replaceAtDown :
    ∀ (d : Nat) (t p q : SgfTree), getAtDown t d = some p →
      (decs (replaceAtDown t d q) ++ decs p).Perm (decs t ++ decs q) := by
  intro d
  induction d with
  | zero =>
    intro t p q h
    cases t with
    | mk dt ch s =>
      simp only [getAtDown, Option.some.injEq] at h
      subst h
      simp only [replaceAtDown]
      exact List.perm_append_comm
  | succ n ih =>
    intro t p q h
    cases t with
    | mk dt ch s =>
      cases ch with
      | nil => simp [getAtDown] at h
      | cons c cs =>
        simp only [getAtDown] at h
        simp only [replaceAtDown, decs, List.cons_append]
        refine List.Perm.cons _ ?_
        calc (decs (replaceAtDown c n q) ++ decsList cs) ++ decs p
            = decs (replaceAtDown c n q) ++ (decsList cs ++ decs p) :=
              List.append_assoc _ _ _
          _ ~ decs (replaceAtDown c n q) ++ (decs p ++ decsList cs) :=
              List.perm_append_comm.append_left _
          _ = (decs (replaceAtDown c n q) ++ decs p) ++ decsList cs :=
              (List.append_assoc _ _ _).symm
          _ ~ (decs c ++ decs q) ++ decsList cs :=
              (ih c p q h).append_right (decsList cs)
          _ = decs c ++ (decs q ++ decsList cs) := List.append_assoc _ _ _
          _ ~ decs c ++ (decsList cs ++ decs q) :=
              List.perm_append_comm.append_left _
          _ = (decs c ++ decsList cs) ++ decs q := (List.append_assoc _ _ _).symm

/-- Auxiliary: overwriting two adjacent positions with each other's elements
permutes the list. -/
theorem set_swap_perm :
    ∀ (l : List SgfTree) (i : Nat), i + 1 < l.length →
      ((l.set i (l.getD (i + 1) default)).set (i + 1) (l.getD i default)).Perm l := by
  intro l
  induction l with
  | nil => intro i h; simp at h
  | cons a rest ih =>
    intro i h
    cases i with
    | zero =>
      cases rest with
      | nil => simp at h
      | cons b rest2 =>
        simp only [List.getD_cons_succ, List.getD_cons_zero, List.set_cons_zero,
          List.set_cons_succ]
        exact List.Perm.swap a b rest2
    | succ m =>
      simp only [List.length_cons, Nat.add_lt_add_iff_right] at h
      simp only [List.getD_cons_succ, List.set_cons_succ]
      exact (ih m h).cons a

/-- Auxiliary for C8: inserting a node at the reached parent adds exactly
that node's payloads. -/
theorem decs_spliceInsert (pd : SgfProperties) (pch : List SgfTree) (ps : Str)
    (n : SgfTree) (i : Nat) :
    (decs (SgfTree.mk pd (spliceInsert pch i n) ps)).Perm
      (decs (SgfTree.mk pd pch ps) ++ decs n) := by
  show ((pd, ps) :: decsList (pch.take i ++ n :: pch.drop i)).Perm
    (((pd, ps) :: decsList pch) ++ decs n)
  rw [List.cons_append]
  refine List.Perm.cons _ ?_
  calc decsList (pch.take i ++ n :: pch.drop i)
      = decsList (pch.take i) ++ (decs n ++ decsList (pch.drop i)) := by
        rw [decsList_append]; rfl
    _ ~ decsList (pch.take i) ++ (decsList (pch.drop i) ++ decs n) :=
        List.perm_append_comm.append_left _
    _ = decsList (pch.take i) ++ decsList (pch.drop i) ++ decs n :=
        (List.append_assoc _ _ _).symm
    _ = decsList (pch.take i ++ pch.drop i) ++ decs n := by rw [decsList_append]
    _ = decsList pch ++ decs n := by rw [List.take_append_drop]

/-- C8: with a valid descent (and, for `shift`, in-range sibling indices —
the validity the source assumes), each editor operation only moves nodes
around: the payload list of `add`'s result is a permutation of the tree's
payloads plus the inserted node's, `remove`'s result together with the
removed child is a permutation of the original payloads, and `shift`
permutes the payloads exactly.  Payloads are (properties, raw text) pairs,
so no node's properties or raw text is rewritten by any of the three
operations. -/
theorem C8_edits_only_rearrange (t p n : SgfTree) (d r : Nat) (b : Bool)
    (h : getAtDown t d = some p) :
    (∀ t2, SgfTree.add t n ⟨d, r⟩ = some t2 →
      (decs t2).Perm (decs t ++ decs n)) ∧
    (∀ t2 ch, r ≠ 0 → p.children[r - 1]? = some ch →
      SgfTree.remove t ⟨d, r⟩ = some t2 →
      (decs t2 ++ decs ch).Perm (decs t)) ∧
    (∀ t2, 1 ≤ r →
      (b = true → 2 ≤ r ∧ r - 1 < p.children.length) →
      (b = false → r < p.children.length) →
      SgfTree.shift t ⟨d, r⟩ b = some t2 →
      (decs t2).Perm (decs t)) := by
  obtain ⟨pd, pch, ps⟩ := p
  refine ⟨?_, ?_, ?_⟩
  · intro t2 hadd
    unfold SgfTree.add at hadd
    rw [modifyAtDown_eq_replace _ d t _ h] at hadd
    simp only [SgfTree.data, SgfTree.children, SgfTree.dataAsString,
      Option.some.injEq] at hadd
    subst hadd
    refine (List.perm_append_right_iff (decs (SgfTree.mk pd pch ps))).mp ?_
    refine (decs_replaceAtDown d t _ _ h).trans ?_
    calc decs t ++ decs (SgfTree.mk pd (spliceInsert pch (r - 1) n) ps)
        ~ decs t ++ (decs (SgfTree.mk pd pch ps) ++ decs n) :=
          (decs_spliceInsert pd pch ps n (r - 1)).append_left (decs t)
      _ ~ decs t ++ (decs n ++ decs (SgfTree.mk pd pch ps)) :=
          List.perm_append_comm.append_left _
      _ = decs t ++ decs n ++ decs (SgfTree.mk pd pch ps) :=
          (List.append_assoc _ _ _).symm
  · intro t2 ch hr hch hrem
    simp only [SgfTree.children] at hch
    obtain ⟨hlt, he⟩ := List.getElem?_eq_some.mp hch
    unfold SgfTree.remove at hrem
    rw [modifyAtDown_eq_replace _ d t _ h] at hrem
    simp only [ne_eq, hr, not_false_iff, if_true, SgfTree.data, SgfTree.children,
      SgfTree.dataAsString, Option.some.injEq] at hrem
    subst hrem
    have hdrop : pch.drop (r - 1) = ch :: pch.drop (r - 1 + 1) := by
      rw [List.drop_eq_getElem_cons hlt, he]
    have hq : (decs (SgfTree.mk pd (spliceDelete pch (r - 1)) ps) ++ decs ch).Perm
        (decs (SgfTree.mk pd pch ps)) := by
      show (((pd, ps) :: decsList (pch.take (r - 1) ++ pch.drop (r - 1 + 1))) ++
        decs ch).Perm ((pd, ps) :: decsList pch)
      rw [List.cons_append]
      refine List.Perm.cons _ ?_
      calc decsList (pch.take (r - 1) ++ pch.drop (r - 1 + 1)) ++ decs ch
          = decsList (pch.take (r - 1)) ++ (decsList (pch.drop (r - 1 + 1)) ++ decs ch) := by
            rw [decsList_append, List.append_assoc]
        _ ~ decsList (pch.take (r - 1)) ++ (decs ch ++ decsList (pch.drop (r - 1 + 1))) :=
            List.perm_append_comm.append_left _
        _ = decsList (pch.take (r - 1)) ++ decsList (ch :: pch.drop (r - 1 + 1)) := rfl
        _ = decsList (pch.take (r - 1) ++ pch.drop (r - 1)) := by
            rw [← decsList_append, hdrop]
        _ = decsList pch := by rw [List.take_append_drop]
    refine (List.perm_append_right_iff (decs (SgfTree.mk pd pch ps))).mp ?_
    calc (decs (replaceAtDown t d
            (SgfTree.mk pd (spliceDelete pch (r - 1)) ps)) ++ decs ch) ++
          decs (SgfTree.mk pd pch ps)
        = decs (replaceAtDown t d (SgfTree.mk pd (spliceDelete pch (r - 1)) ps)) ++
            (decs ch ++ decs (SgfTree.mk pd pch ps)) := List.append_assoc _ _ _
      _ ~ decs (replaceAtDown t d (SgfTree.mk pd (spliceDelete pch (r - 1)) ps)) ++
            (decs (SgfTree.mk pd pch ps) ++ decs ch) :=
          List.perm_append_comm.append_left _
      _ = (decs (replaceAtDown t d (SgfTree.mk pd (spliceDelete pch (r - 1)) ps)) ++
            decs (SgfTree.mk pd pch ps)) ++ decs ch := (List.append_assoc _ _ _).symm
      _ ~ (decs t ++ decs (SgfTree.mk pd (spliceDelete pch (r - 1)) ps)) ++ decs ch :=
          (decs_replaceAtDown d t _ _ h).append_right (decs ch)
      _ = decs t ++ (decs (SgfTree.mk pd (spliceDelete pch (r - 1)) ps) ++ decs ch) :=
          List.append_assoc _ _ _
      _ ~ decs t ++ decs (SgfTree.mk pd pch ps) := hq.append_left (decs t)
  · intro t2 hr1 hbl hbr hsh
    unfold SgfTree.shift at hsh
    rw [modifyAtDown_eq_replace _ d t _ h] at hsh
    cases b with
    | true =>
      obtain ⟨hr2, hlt⟩ := hbl rfl
      simp only [SgfTree.children] at hlt
      simp only [SgfTree.data, SgfTree.children, SgfTree.dataAsString, if_true,
        Option.some.injEq] at hsh
      subst hsh
      refine (List.perm_append_right_iff (decs (SgfTree.mk pd pch ps))).mp ?_
      refine (decs_replaceAtDown d t _ _ h).trans ?_
      refine List.Perm.append_left (decs t) ?_
      show (decs (SgfTree.mk pd
        ((pch.set (r - 2) (pch.getD (r - 1) default)).set (r - 1)
          (pch.getD (r - 2) default)) ps)).Perm (decs (SgfTree.mk pd pch ps))
      refine List.Perm.cons _ (decsList_perm ?_)
      have har : r - 2 + 1 = r - 1 := by omega
      have hlen : r - 2 + 1 < pch.length := by omega
      have hp := set_swap_perm pch (r - 2) hlen
      rw [har] at hp
      exact hp
    | false =>
      have hlt := hbr rfl
      simp only [SgfTree.children] at hlt
      simp only [SgfTree.data, SgfTree.children, SgfTree.dataAsString,
        Bool.false_eq_true, if_false, Option.some.injEq] at hsh
      subst hsh
      refine (List.perm_append_right_iff (decs (SgfTree.mk pd pch ps))).mp ?_
      refine (decs_replaceAtDown d t _ _ h).trans ?_
      refine List.Perm.append_left (decs t) ?_
      show (decs (SgfTree.mk pd
        ((pch.set r (pch.getD (r - 1) default)).set (r - 1)
          (pch.getD r default)) ps)).Perm (decs (SgfTree.mk pd pch ps))
      refine List.Perm.cons _ (decsList_perm ?_)
      have har : r - 1 + 1 = r := by omega
      have hne : r ≠ r - 1 := by omega
      have hlen : r - 1 + 1 < pch.length := by omega
      have hp := set_swap_perm pch (r - 1) hlen
      rw [har] at hp
      rw [List.set_comm _ _ pch hne]
      exact hp

/-- Witness for C8 at the branching example: inserting the new node at
coordinate `{down:1, right:2}`, removing at `{down:1, right:1}`, and
shifting at `{down:1, right:1}` rightward all relate the payload lists as
the theorem states. -/
theorem C8_edits_only_rearrange_witness :
    getAtDown c6Tree 1 = some bNode ∧
    (∀ t2, SgfTree.add c6Tree c5NewNode ⟨1, 2⟩ = some t2 →
      (decs t2).Perm (decs c6Tree ++ decs c5NewNode)) ∧
    (∀ t2 ch, (1 : Nat) ≠ 0 → bNode.children[(1 : Nat) - 1]? = some ch →
      SgfTree.remove c6Tree ⟨1, 1⟩ = some t2 →
      (decs t2 ++ decs ch).Perm (decs c6Tree)) ∧
    (∀ t2, 1 ≤ 1 →
      (false = true → 2 ≤ 1 ∧ 1 - 1 < bNode.children.length) →
      (false = false → 1 < bNode.children.length) →
      SgfTree.shift c6Tree ⟨1, 1⟩ false = some t2 →
      (decs t2).Perm (decs c6Tree)) := by
  have h2 := C8_edits_only_rearrange c6Tree bNode c5NewNode 1 2 false rfl
  have h1 := C8_edits_only_rearrange c6Tree bNode c5NewNode 1 1 false rfl
  exact ⟨rfl, h2.1, h1.2.1, h1.2.2⟩

/-- C10: plain text following the node's property text is silently
discarded: appending a segment containing no bracket leaves the parsed
property map unchanged, because the final accumulated token is never
flushed. -/
theorem C10_trailing_text_discarded (s t : Str) (hne : t ≠ [])
    (h : ∀ c ∈ t, c ≠ '[' ∧ c ≠ ']') :
    parseNodeData (s ++ t) = parseNodeData s := by
  have hsb : splitBrackets (s ++ t) = splitBrackets s := by
    unfold splitBrackets
    rw [List.foldl_append, splitBracketsStep_no_flush t h]
  unfold parseNodeData
  rw [hsb]

/-- Witness for C10: `"AB[aa]XY"` parses to the same property map as
`"AB[aa]"`. -/
theorem C10_trailing_text_discarded_witness :
    "XY".toList ≠ [] ∧ (∀ c ∈ "XY".toList, c ≠ '[' ∧ c ≠ ']') ∧
    parseNodeData ("AB[aa]".toList ++ "XY".toList) = parseNodeData "AB[aa]".toList :=
  ⟨by decide, by decide,
    C10_trailing_text_discarded "AB[aa]".toList "XY".toList (by decide) (by decide)⟩

/-- Auxiliary: `splitSemi` never yields the empty list. -/
theorem splitSemi_ne_nil : ∀ l : Str, splitSemi l ≠ [] := by
  intro l
  induction l with
  | nil => simp [splitSemi]
  | cons c rest ih =>
    unfold splitSemi
    by_cases hc : c = ';'
    · simp [hc]
    · simp only [hc, if_false]
      cases hsp : splitSemi rest <;> simp

/-- Auxiliary: splitting after a semicolon-free prefix prepends the prefix
onto the first segment. -/
theorem splitSemi_append (a l : Str) (ha : ∀ c ∈ a, c ≠ ';') :
    splitSemi (a ++ l) = (a ++ (splitSemi l).headD []) :: (splitSemi l).tail := by
  induction a with
  | nil =>
    simp only [List.nil_append]
    cases h : splitSemi l with
    | nil => exact absurd h (splitSemi_ne_nil l)
    | cons s ss => simp
  | cons c a2 ih =>
    have hc : c ≠ ';' := ha c (List.mem_cons_self c a2)
    have ha2 : ∀ x ∈ a2, x ≠ ';' := fun x hx => ha x (List.mem_cons_of_mem c hx)
    simp only [List.cons_append, splitSemi, hc, if_false, List.append_eq, ih ha2]

/-- Auxiliary: every character of a `splitSemi` segment comes from the split
string. -/
theorem splitSemi_sub : ∀ (l s : Str), s ∈ splitSemi l → ∀ c ∈ s, c ∈ l := by
  intro l
  induction l with
  | nil =>
    intro s hs c hc
    simp only [splitSemi, List.mem_singleton] at hs
    subst hs
    simp at hc
  | cons x rest ih =>
    intro s hs c hc
    by_cases hx : x = ';'
    · simp only [splitSemi, hx, if_true] at hs
      rcases List.mem_cons.mp hs with h1 | h2
      · subst h1; simp at hc
      · exact List.mem_cons_of_mem x (ih s h2 c hc)
    · simp only [splitSemi, hx, if_false] at hs
      cases hsp : splitSemi rest with
      | nil => exact absurd hsp (splitSemi_ne_nil rest)
      | cons t ts =>
        rw [hsp] at hs
        rcases List.mem_cons.mp hs with h1 | h2
        · subst h1
          rcases List.mem_cons.mp hc with h3 | h4
          · subst h3; exact List.mem_cons_self c rest
          · refine List.mem_cons_of_mem x (ih t ?_ c h4)
            rw [hsp]; exact List.mem_cons_self t ts
        · refine List.mem_cons_of_mem x (ih s ?_ c hc)
          rw [hsp]; exact List.mem_cons_of_mem t h2

/-- Auxiliary: no `splitSemi` segment contains a semicolon. -/
theorem splitSemi_no_semi : ∀ (l s : Str), s ∈ splitSemi l → ';' ∉ s := by
  intro l
  induction l with
  | nil =>
    intro s hs
    simp only [splitSemi, List.mem_singleton] at hs
    subst hs
    simp
  | cons x rest ih =>
    intro s hs
    by_cases hx : x = ';'
    · simp only [splitSemi, hx, if_true] at hs
      rcases List.mem_cons.mp hs with h1 | h2
      · subst h1; simp
      · exact ih s h2
    · simp only [splitSemi, hx, if_false] at hs
      cases hsp : splitSemi rest with
      | nil => exact absurd hsp (splitSemi_ne_nil rest)
      | cons t ts =>
        rw [hsp] at hs
        rcases List.mem_cons.mp hs with h1 | h2
        · subst h1
          intro hmem
          rcases List.mem_cons.mp hmem with h3 | h4
          · exact hx h3.symm
          · exact ih t (by rw [hsp]; exact List.mem_cons_self t ts) h4
        · exact ih s (by rw [hsp]; exact List.mem_cons_of_mem t h2)

/-- Auxiliary: the scanner on the empty input is the identity. -/
theorem runScan_nil (st : ScanState) : runScan [] st = some st := rfl

/-- Auxiliary: the scanner processes one character, then the rest. -/
theorem runScan_cons (c : Char) (l : List Char) (st : ScanState) :
    runScan (c :: l) st = (scanStep st c).bind (fun st2 => runScan l st2) := by
  rfl

/-- Auxiliary: the scanner splits over appended input. -/
theorem runScan_append (l1 l2 : List Char) (st : ScanState) :
    runScan (l1 ++ l2) st = (runScan l1 st).bind (fun st2 => runScan l2 st2) := by
  induction l1 generalizing st with
  | nil => simp [runScan_nil]
  | cons c l ih =>
    rw [List.cons_append, runScan_cons, runScan_cons]
    cases scanStep st c with
    | none => rfl
    | some st2 => simp only [Option.some_bind]; exact ih st2

/-- Auxiliary: the step on a non-parenthesis character only accumulates. -/
theorem scanStep_plain (st : ScanState) (c : Char) (h1 : c ≠ '(') (h2 : c ≠ ')') :
    scanStep st c = some ⟨st.stack, st.cur, st.currentString ++ [c]⟩ := by
  simp [scanStep, h1, h2]

/-- Auxiliary: the step on `(` pushes the current node and descends. -/
theorem scanStep_open (st : ScanState) :
    scanStep st '(' =
      some ⟨⟨st.currentString, st.cur.children⟩ :: st.stack, ⟨[], []⟩, []⟩ := rfl

/-- Auxiliary: the step on `)` finalizes the current node and ascends. -/
theorem scanStep_close (stk : List Frame) (p fr : Frame) (cs : Str) :
    scanStep ⟨p :: stk, fr, cs⟩ ')' =
      some ⟨stk, ⟨p.dataAsString, p.children ++ [finalizeNode fr.children cs]⟩,
        p.dataAsString⟩ := rfl

/-- Auxiliary: scanning parenthesis-free text only accumulates it. -/
theorem runScan_plain (l : List Char) (h : ∀ c ∈ l, c ≠ '(' ∧ c ≠ ')') :
    ∀ st : ScanState, runScan l st = some ⟨st.stack, st.cur, st.currentString ++ l⟩ := by
  induction l with
  | nil => intro st; simp [runScan_nil]
  | cons c rest ih =>
    intro st
    obtain ⟨h1, h2⟩ := h c (List.mem_cons_self c rest)
    have hrest : ∀ x ∈ rest, x ≠ '(' ∧ x ≠ ')' :=
      fun x hx => h x (List.mem_cons_of_mem c hx)
    rw [runScan_cons, scanStep_plain st c h1 h2, Option.some_bind, ih hrest]
    simp

/-- Auxiliary: a member of the child list is smaller than the node. -/
theorem sizeOf_child (d : SgfProperties) (ch : List SgfTree) (s : Str)
    (c : SgfTree) (hc : c ∈ ch) : sizeOf c < sizeOf (SgfTree.mk d ch s) := by
  have h1 := List.sizeOf_lt_of_mem hc
  have h2 : sizeOf (SgfTree.mk d ch s) = 1 + sizeOf d + sizeOf ch + sizeOf s := by
    simp [SgfTree.mk.sizeOf_spec]
  omega

/-- Auxiliary: the accumulator form of the serialization `reduce` equals the
plain concatenation of the groups. -/
theorem toSgfGroups_eq : ∀ (gs : List SgfTree) (acc : Str),
    toSgfGroups acc gs = acc ++ groupsConcat gs := by
  intro gs
  induction gs with
  | nil => intro acc; simp [toSgfGroups, groupsConcat]
  | cons g gs2 ih =>
    intro acc
    simp only [toSgfGroups, groupsConcat, ih, List.append_assoc]

/-- Auxiliary: a semicolon-free string is a single segment. -/
theorem splitSemi_self (s : Str) (h : ∀ c ∈ s, c ≠ ';') : splitSemi s = [s] := by
  have := splitSemi_append s [] h
  simpa [splitSemi] using this

/-- Auxiliary: splitting the chain text of a stable tree on semicolons and
discarding empty segments recovers exactly the chain's raw texts. -/
theorem chainText_filter (c : SgfTree) (hc : StableInv c) :
    (splitSemi (chainText c)).filter (fun m => m ≠ []) = chainSegs c := by
  induction c using chainText.induct with
  | case1 d s =>
    cases hc with
    | mk hclean hne hdata hch =>
      rw [show chainText (SgfTree.mk d [] s) = s from by simp [chainText]]
      rw [splitSemi_self s (fun c hx => (hclean c hx).2.2.1)]
      simp [chainSegs, hne]
  | case2 d c1 s ih =>
    cases hc with
    | mk hclean hne hdata hch =>
      have hinv1 : StableInv c1 := hch c1 (List.mem_cons_self c1 [])
      rw [show chainText (SgfTree.mk d [c1] s) = s ++ ';' :: chainText c1 from by
        simp [chainText]]
      rw [splitSemi_append s (';' :: chainText c1) (fun c hx => (hclean c hx).2.2.1)]
      rw [show splitSemi (';' :: chainText c1) = [] :: splitSemi (chainText c1) from by
        simp [splitSemi]]
      simp only [List.headD_cons, List.tail_cons, List.append_nil]
      rw [List.filter_cons_of_pos (by simpa using hne), ih hinv1]
      simp [chainSegs]
  | case3 d c1 c2 cs s =>
    cases hc with
    | mk hclean hne hdata hch =>
      rw [show chainText (SgfTree.mk d (c1 :: c2 :: cs) s) = s from by simp [chainText]]
      rw [splitSemi_self s (fun c hx => (hclean c hx).2.2.1)]
      simp [chainSegs, hne]

/-- Auxiliary: rebuilding the chain of a stable tree from its raw texts and
its tail branches yields the tree itself. -/
theorem buildChain_chainSegs (c : SgfTree) (hc : StableInv c) :
    buildChain (tailGroups c) (chainSegs c) = [c] := by
  induction c using chainSegs.induct with
  | case1 d s =>
    cases hc with
    | mk hclean hne hdata hch =>
      simp [chainSegs, tailGroups, buildChain, hdata]
  | case2 d c1 s ih =>
    cases hc with
    | mk hclean hne hdata hch =>
      have hinv1 : StableInv c1 := hch c1 (List.mem_cons_self c1 [])
      simp only [chainSegs, tailGroups, buildChain]
      rw [ih hinv1, ← hdata]
  | case3 d c1 c2 cs s =>
    cases hc with
    | mk hclean hne hdata hch =>
      simp [chainSegs, tailGroups, buildChain, hdata]

/-- Auxiliary: finalizing a node whose raw text is a semicolon followed by
the chain text of a stable tree, with that tree's tail branches as
accumulated children, reproduces the tree: serialization inverts through the
chain expansion. -/
theorem finalize_inverts (c : SgfTree) (hc : StableInv c) :
    finalizeNode (tailGroups c) (';' :: chainText c) = c := by
  have hsegs : (splitSemi (';' :: chainText c)).filter (fun m => m ≠ []) = chainSegs c := by
    rw [show splitSemi (';' :: chainText c) = [] :: splitSemi (chainText c) from by
      simp [splitSemi]]
    rw [List.filter_cons_of_neg (by simp)]
    exact chainText_filter c hc
  unfold finalizeNode SgfTree.parseBranch
  simp only [SgfTree.children, SgfTree.dataAsString, hsegs]
  cases c with
  | mk d ch s =>
    cases hc with
    | mk hclean hne hdata hch =>
      cases ch with
      | nil =>
        simp only [chainSegs, jsFirst, List.tail_cons, tailGroups, buildChain]
        rw [← hdata]
      | cons c1 ch2 =>
        cases ch2 with
        | nil =>
          simp only [chainSegs, jsFirst, List.tail_cons, tailGroups, buildChain]
          have hinv1 : StableInv c1 := hch c1 (List.mem_cons_self c1 [])
          rw [buildChain_chainSegs c1 hinv1, ← hdata]
        | cons c2 cs =>
          simp only [chainSegs, jsFirst, List.tail_cons, tailGroups, buildChain]
          rw [← hdata]

/-- Auxiliary: a full `(;…)` group appends exactly one completed subtree to
the current node, given the one-level scan fact and the finalization fact
for it. -/
theorem scanGroup_of (g : SgfTree)
    (hH : ∀ (stk : List Frame) (p fr : Frame) (cs0 : Str),
      runScan (SgfTree.toSgf g ++ [')']) ⟨p :: stk, fr, cs0⟩ =
        some ⟨stk, ⟨p.dataAsString, p.children ++
          [finalizeNode (fr.children ++ tailGroups g) (cs0 ++ chainText g)]⟩,
          p.dataAsString⟩)
    (hE : finalizeNode (tailGroups g) (';' :: chainText g) = g) :
    ∀ (stk : List Frame) (fr : Frame) (cs : Str),
      runScan ('(' :: ';' :: SgfTree.toSgf g ++ [')']) ⟨stk, fr, cs⟩ =
        some ⟨stk, ⟨cs, fr.children ++ [g]⟩, cs⟩ := by
  intro stk fr cs
  rw [show ('(' :: ';' :: SgfTree.toSgf g ++ [')'] : List Char) =
      '(' :: (';' :: (SgfTree.toSgf g ++ [')'])) from by simp]
  calc runScan ('(' :: (';' :: (SgfTree.toSgf g ++ [')']))) ⟨stk, fr, cs⟩
      = runScan (';' :: (SgfTree.toSgf g ++ [')'])) ⟨⟨cs, fr.children⟩ :: stk, ⟨[], []⟩, []⟩ := by
        rw [runScan_cons, scanStep_open, Option.some_bind]
    _ = runScan (SgfTree.toSgf g ++ [')']) ⟨⟨cs, fr.children⟩ :: stk, ⟨[], []⟩, [';']⟩ := by
        rw [runScan_cons, scanStep_plain _ ';' (by decide) (by decide), Option.some_bind]
        rfl
    _ = some ⟨stk, ⟨cs, fr.children ++ [g]⟩, cs⟩ := by
        have h := hH stk ⟨cs, fr.children⟩ ⟨[], []⟩ [';']
        simpa [hE] using h

/-- Auxiliary: scanning a non-empty run of `(;…)` groups appends the group
trees, in order, to the current node's children, given the group fact for
each member. -/
theorem scanGroupsGo : ∀ (gs : List SgfTree) (g0 : SgfTree),
    (∀ g ∈ g0 :: gs, ∀ (stk : List Frame) (fr : Frame) (cs : Str),
      runScan ('(' :: ';' :: SgfTree.toSgf g ++ [')']) ⟨stk, fr, cs⟩ =
        some ⟨stk, ⟨cs, fr.children ++ [g]⟩, cs⟩) →
    ∀ (stk : List Frame) (fr : Frame) (cs : Str),
      runScan (groupsConcat (g0 :: gs)) ⟨stk, fr, cs⟩ =
        some ⟨stk, ⟨cs, fr.children ++ (g0 :: gs)⟩, cs⟩ := by
  intro gs
  induction gs with
  | nil =>
    intro g0 hM stk fr cs
    show runScan (('(' :: ';' :: SgfTree.toSgf g0 ++ [')']) ++ groupsConcat []) _ = _
    rw [runScan_append, hM g0 (List.mem_cons_self g0 []), Option.some_bind]
    rfl
  | cons g1 gs2 ih =>
    intro g0 hM stk fr cs
    show runScan (('(' :: ';' :: SgfTree.toSgf g0 ++ [')']) ++ groupsConcat (g1 :: gs2)) _ = _
    rw [runScan_append, hM g0 (List.mem_cons_self g0 _), Option.some_bind]
    have hM2 : ∀ g ∈ g1 :: gs2, ∀ (stk : List Frame) (fr : Frame) (cs : Str),
        runScan ('(' :: ';' :: SgfTree.toSgf g ++ [')']) ⟨stk, fr, cs⟩ =
          some ⟨stk, ⟨cs, fr.children ++ [g]⟩, cs⟩ :=
      fun g hg => hM g (List.mem_cons_of_mem g0 hg)
    rw [ih g1 hM2 stk ⟨cs, fr.children ++ [g0]⟩ cs]
    simp

/-- Auxiliary, the heart of the round-trip proof: scanning the serialization
of a stable tree followed by `)` closes the current node, appending to its
parent the node obtained by finalizing the accumulated text extended with
the tree's chain text, over the accumulated children extended with the
tree's tail branches. -/
theorem scanH : ∀ (n : Nat) (c : SgfTree), sizeOf c ≤ n → StableInv c →
    ∀ (stk : List Frame) (p fr : Frame) (cs0 : Str),
    runScan (SgfTree.toSgf c ++ [')']) ⟨p :: stk, fr, cs0⟩ =
      some ⟨stk, ⟨p.dataAsString,
        p.children ++ [finalizeNode (fr.children ++ tailGroups c) (cs0 ++ chainText c)]⟩,
        p.dataAsString⟩ := by
  intro n
  induction n with
  | zero =>
    intro c hsz
    exact absurd hsz (by cases c with
      | mk d ch s =>
        simp only [SgfTree.mk.sizeOf_spec]
        omega)
  | succ m ih =>
    intro c hsz hc stk p fr cs0
    obtain ⟨d, ch, s⟩ := c
    cases hc with
    | mk hclean hne hdata hch =>
      have hplain : ∀ x ∈ s, x ≠ '(' ∧ x ≠ ')' :=
        fun x hx => ⟨(hclean x hx).1, (hclean x hx).2.1⟩
      cases ch with
      | nil =>
        rw [show SgfTree.toSgf (SgfTree.mk d [] s) = s from by simp [SgfTree.toSgf]]
        calc runScan (s ++ [')']) ⟨p :: stk, fr, cs0⟩
            = runScan [')'] ⟨p :: stk, fr, cs0 ++ s⟩ := by
              rw [runScan_append, runScan_plain s hplain, Option.some_bind]
          _ = some ⟨stk, ⟨p.dataAsString,
                p.children ++ [finalizeNode fr.children (cs0 ++ s)]⟩, p.dataAsString⟩ := by
              rw [runScan_cons, scanStep_close, Option.some_bind, runScan_nil]
          _ = some ⟨stk, ⟨p.dataAsString, p.children ++
                [finalizeNode (fr.children ++ tailGroups (SgfTree.mk d [] s))
                  (cs0 ++ chainText (SgfTree.mk d [] s))]⟩, p.dataAsString⟩ := by
              simp [tailGroups, chainText]
      | cons c1 ch2 =>
        cases ch2 with
        | nil =>
          have hinv1 : StableInv c1 := hch c1 (List.mem_cons_self c1 [])
          have hsz1 : sizeOf c1 ≤ m := by
            have := sizeOf_child d [c1] s c1 (List.mem_cons_self c1 [])
            omega
          rw [show SgfTree.toSgf (SgfTree.mk d [c1] s) = s ++ ';' :: SgfTree.toSgf c1 from by
            simp [SgfTree.toSgf]]
          rw [show (s ++ ';' :: SgfTree.toSgf c1) ++ [')'] =
              (s ++ [';']) ++ (SgfTree.toSgf c1 ++ [')']) from by simp]
          have hplain2 : ∀ x ∈ s ++ [';'], x ≠ '(' ∧ x ≠ ')' := by
            intro x hx
            rcases List.mem_append.mp hx with h1 | h2
            · exact hplain x h1
            · simp only [List.mem_singleton] at h2
              subst h2
              exact ⟨by decide, by decide⟩
          calc runScan ((s ++ [';']) ++ (SgfTree.toSgf c1 ++ [')'])) ⟨p :: stk, fr, cs0⟩
              = runScan (SgfTree.toSgf c1 ++ [')']) ⟨p :: stk, fr, cs0 ++ (s ++ [';'])⟩ := by
                rw [runScan_append, runScan_plain _ hplain2, Option.some_bind]
            _ = some ⟨stk, ⟨p.dataAsString, p.children ++
                  [finalizeNode (fr.children ++ tailGroups c1)
                    ((cs0 ++ (s ++ [';'])) ++ chainText c1)]⟩, p.dataAsString⟩ :=
                ih c1 hsz1 hinv1 stk p fr _
            _ = some ⟨stk, ⟨p.dataAsString, p.children ++
                  [finalizeNode (fr.children ++ tailGroups (SgfTree.mk d [c1] s))
                    (cs0 ++ chainText (SgfTree.mk d [c1] s))]⟩, p.dataAsString⟩ := by
                simp [tailGroups, chainText, List.append_assoc]
        | cons c2 cs2 =>
          have hM : ∀ g ∈ c1 :: c2 :: cs2, ∀ (stk2 : List Frame) (fr2 : Frame) (csx : Str),
              runScan ('(' :: ';' :: SgfTree.toSgf g ++ [')']) ⟨stk2, fr2, csx⟩ =
                some ⟨stk2, ⟨csx, fr2.children ++ [g]⟩, csx⟩ := by
            intro g hg
            have hszg : sizeOf g ≤ m := by
              have := sizeOf_child d (c1 :: c2 :: cs2) s g hg
              omega
            have hinvg : StableInv g := hch g hg
            exact scanGroup_of g (ih g hszg hinvg) (finalize_inverts g hinvg)
          rw [show SgfTree.toSgf (SgfTree.mk d (c1 :: c2 :: cs2) s) =
              s ++ groupsConcat (c1 :: c2 :: cs2) from by
            simp [SgfTree.toSgf, toSgfGroups_eq]]
          rw [show (s ++ groupsConcat (c1 :: c2 :: cs2)) ++ [')'] =
              s ++ (groupsConcat (c1 :: c2 :: cs2) ++ [')']) from by simp]
          calc runScan (s ++ (groupsConcat (c1 :: c2 :: cs2) ++ [')'])) ⟨p :: stk, fr, cs0⟩
              = runScan (groupsConcat (c1 :: c2 :: cs2) ++ [')']) ⟨p :: stk, fr, cs0 ++ s⟩ := by
                rw [runScan_append, runScan_plain s hplain, Option.some_bind]
            _ = runScan [')']
                  ⟨p :: stk, ⟨cs0 ++ s, fr.children ++ (c1 :: c2 :: cs2)⟩, cs0 ++ s⟩ := by
                rw [runScan_append, scanGroupsGo (c2 :: cs2) c1 hM, Option.some_bind]
            _ = some ⟨stk, ⟨p.dataAsString, p.children ++
                  [finalizeNode (fr.children ++ (c1 :: c2 :: cs2)) (cs0 ++ s)]⟩,
                  p.dataAsString⟩ := by
                rw [runScan_cons, scanStep_close, Option.some_bind, runScan_nil]
            _ = some ⟨stk, ⟨p.dataAsString, p.children ++
                  [finalizeNode (fr.children ++ tailGroups (SgfTree.mk d (c1 :: c2 :: cs2) s))
                    (cs0 ++ chainText (SgfTree.mk d (c1 :: c2 :: cs2) s))]⟩,
                  p.dataAsString⟩ := by
                simp [tailGroups, chainText]

/-- Auxiliary: the standalone group fact for any stable tree. -/
theorem scanGroup (g : SgfTree) (hg : StableInv g) :
    ∀ (stk : List Frame) (fr : Frame) (cs : Str),
      runScan ('(' :: ';' :: SgfTree.toSgf g ++ [')']) ⟨stk, fr, cs⟩ =
        some ⟨stk, ⟨cs, fr.children ++ [g]⟩, cs⟩ :=
  scanGroup_of g (scanH (sizeOf g) g (Nat.le_refl _) hg) (finalize_inverts g hg)

/-- Auxiliary: chain nodes built from clean segments over `PInv` children
satisfy `PInv`. -/
theorem buildChain_PInv : ∀ (segs : List Str) (ch : List SgfTree),
    (∀ u ∈ ch, PInv u) → (∀ t2 ∈ segs, ∀ c ∈ t2, cleanChar c) →
    ∀ u ∈ buildChain ch segs, PInv u := by
  intro segs
  induction segs with
  | nil => intro ch hch hsegs u hu; exact hch u hu
  | cons s rest ih =>
    intro ch hch hsegs u hu
    simp only [buildChain, List.mem_singleton] at hu
    subst hu
    refine PInv.mk (hsegs s (List.mem_cons_self s rest)) rfl ?_
    exact ih ch hch (fun t2 ht2 => hsegs t2 (List.mem_cons_of_mem s ht2))

/-- Auxiliary: the node the scanner finalizes from `PInv` children and plain
accumulated text satisfies `PInv`. -/
theorem finalizeNode_PInv (ch : List SgfTree) (raw : Str)
    (hch : ∀ u ∈ ch, PInv u) (hraw : ∀ c ∈ raw, plainChar c) :
    PInv (finalizeNode ch raw) := by
  have hsegclean : ∀ t2 ∈ (splitSemi raw).filter (fun m => m ≠ []), ∀ c ∈ t2, cleanChar c := by
    intro t2 ht2 c hc
    have ht2s : t2 ∈ splitSemi raw := List.mem_of_mem_filter ht2
    have hcr : c ∈ raw := splitSemi_sub raw t2 ht2s c hc
    have hns : ';' ∉ t2 := splitSemi_no_semi raw t2 ht2s
    obtain ⟨h1, h2, h3, h4⟩ := hraw c hcr
    exact ⟨h1, h2, fun he => hns (he ▸ hc), h3, h4⟩
  unfold finalizeNode SgfTree.parseBranch
  simp only [SgfTree.children, SgfTree.dataAsString]
  cases hn : (splitSemi raw).filter (fun m => m ≠ []) with
  | nil =>
    refine PInv.mk (by simp [jsFirst]) rfl ?_
    simpa [buildChain] using hch
  | cons s0 rest =>
    refine PInv.mk ?_ rfl ?_
    · intro c hc
      exact hsegclean s0 (by rw [hn]; exact List.mem_cons_self s0 rest) c hc
    · simp only [List.tail_cons]
      refine buildChain_PInv rest ch hch ?_
      intro t2 ht2
      exact hsegclean t2 (by rw [hn]; exact List.mem_cons_of_mem s0 ht2)

/-- Auxiliary: one scanner step preserves the scanner-state invariant on
newline- and tab-free input. -/
theorem scanStep_StInv (st : ScanState) (c : Char) (hc : c ≠ '\n' ∧ c ≠ '\t')
    (hst : StInv st) : ∀ st2, scanStep st c = some st2 → StInv st2 := by
  obtain ⟨hcs, hstk, hcur⟩ := hst
  intro st2 hstep
  by_cases h1 : c = '('
  · subst h1
    rw [scanStep_open] at hstep
    obtain rfl := (Option.some.injEq _ _).mp hstep
    refine ⟨by simp, ?_, by simp⟩
    intro fr2 hfr2
    rcases List.mem_cons.mp hfr2 with he | hm
    · subst he; exact ⟨hcs, hcur⟩
    · exact hstk fr2 hm
  · by_cases h2 : c = ')'
    · subst h2
      cases hstack : st.stack with
      | nil =>
        rw [show scanStep st ')' = none from by
          simp [scanStep, hstack]] at hstep
        exact absurd hstep (by simp)
      | cons p rest =>
        rw [show scanStep st ')' =
            some ⟨rest, ⟨p.dataAsString,
              p.children ++ [finalizeNode st.cur.children st.currentString]⟩,
              p.dataAsString⟩ from by
          simp [scanStep, hstack]] at hstep
        obtain rfl := (Option.some.injEq _ _).mp hstep
        have hp := hstk p (by rw [hstack]; exact List.mem_cons_self p rest)
        refine ⟨hp.1, ?_, ?_⟩
        · intro fr2 hfr2
          exact hstk fr2 (by rw [hstack]; exact List.mem_cons_of_mem p hfr2)
        · intro u hu
          rcases List.mem_append.mp hu with hm | hm
          · exact hp.2 u hm
          · simp only [List.mem_singleton] at hm
            subst hm
            exact finalizeNode_PInv st.cur.children st.currentString hcur hcs
    · rw [scanStep_plain st c h1 h2] at hstep
      obtain rfl := (Option.some.injEq _ _).mp hstep
      refine ⟨?_, hstk, hcur⟩
      intro x hx
      rcases List.mem_append.mp hx with hm | hm
      · exact hcs x hm
      · simp only [List.mem_singleton] at hm
        subst hm
        exact ⟨h1, h2, hc.1, hc.2⟩

/-- Auxiliary: the whole scan preserves the scanner-state invariant. -/
theorem runScan_StInv : ∀ (l : List Char) (st : ScanState),
    (∀ c ∈ l, c ≠ '\n' ∧ c ≠ '\t') → StInv st →
    ∀ st2, runScan l st = some st2 → StInv st2 := by
  intro l
  induction l with
  | nil =>
    intro st hl hst st2 h
    rw [runScan_nil] at h
    obtain rfl := (Option.some.injEq _ _).mp h
    exact hst
  | cons c rest ih =>
    intro st hl hst st2 h
    rw [runScan_cons] at h
    cases hstep : scanStep st c with
    | none => rw [hstep] at h; exact absurd h (by simp)
    | some st1 =>
      rw [hstep, Option.some_bind] at h
      have hst1 := scanStep_StInv st c (hl c (List.mem_cons_self c rest)) hst st1 hstep
      exact ih st1 (fun x hx => hl x (List.mem_cons_of_mem c hx)) hst1 st2 h

/-- Auxiliary: the cleaned input has no newline or tab. -/
theorem sgfCleanup_chars (s : Str) : ∀ c ∈ sgfCleanup s, c ≠ '\n' ∧ c ≠ '\t' := by
  intro c hc
  unfold sgfCleanup at hc
  have h1 := List.of_mem_filter hc
  have hc2 := List.mem_of_mem_filter hc
  have h2 := List.of_mem_filter hc2
  constructor
  · simpa using h2
  · simpa using h1

/-- Auxiliary: every child of a `parseSgf` result satisfies the parser
invariant, and the result's own `data` is empty. -/
theorem parseSgf_children_PInv (s : Str) (t : SgfTree)
    (h : SgfTree.parseSgf s = some t) :
    (∀ u ∈ SgfTree.children t, PInv u) ∧ SgfTree.data t = [] := by
  unfold SgfTree.parseSgf SgfTree.parseBranches at h
  cases hrun : runScan (sgfCleanup s) ⟨[], ⟨[], []⟩, []⟩ with
  | none => rw [hrun] at h; exact absurd h (by simp)
  | some st =>
    rw [hrun, Option.map_some'] at h
    obtain rfl := (Option.some.injEq _ _).mp h
    have hinv0 : StInv ⟨[], ⟨[], []⟩, []⟩ := ⟨by simp, by simp, by simp⟩
    have hinv := runScan_StInv (sgfCleanup s) _ (sgfCleanup_chars s) hinv0 st hrun
    exact ⟨hinv.2.2, rfl⟩

/-- Auxiliary: members of a non-empty-checked child list pass the check. -/
theorem childrenNonempty_mem : ∀ (l : List SgfTree), childrenNonempty l = true →
    ∀ c ∈ l, nodeNonempty c = true := by
  intro l
  induction l with
  | nil => intro _ c hc; simp at hc
  | cons x rest ih =>
    intro h c hc
    rw [show childrenNonempty (x :: rest) = (nodeNonempty x && childrenNonempty rest) from by
      simp [childrenNonempty]] at h
    obtain ⟨hx, hrest⟩ := Bool.and_eq_true_iff.mp h
    rcases List.mem_cons.mp hc with he | hm
    · subst he; exact hx
    · exact ih hrest c hm

/-- Auxiliary: the parser invariant plus everywhere-non-empty raw text give
the stability invariant. -/
theorem pinv_to_stable : ∀ (n : Nat) (t : SgfTree), sizeOf t ≤ n → PInv t →
    nodeNonempty t = true → StableInv t := by
  intro n
  induction n with
  | zero =>
    intro t hsz
    exact absurd hsz (by cases t with
      | mk d ch s =>
        simp only [SgfTree.mk.sizeOf_spec]
        omega)
  | succ m ih =>
    intro t hsz hp hn
    obtain ⟨d, ch, s⟩ := t
    cases hp with
    | mk hclean hdata hch =>
      rw [show nodeNonempty (SgfTree.mk d ch s) = (!s.isEmpty && childrenNonempty ch) from by
        simp [nodeNonempty]] at hn
      obtain ⟨hs, hcn⟩ := Bool.and_eq_true_iff.mp hn
      refine StableInv.mk hclean (by simpa using hs) hdata ?_
      intro u hu
      have hszu : sizeOf u ≤ m := by
        have := sizeOf_child d ch s u hu
        omega
      exact ih u hszu (hch u hu) (childrenNonempty_mem ch hcn u hu)

/-- Auxiliary: the concatenated groups of trees with newline- and tab-free
serializations are newline- and tab-free. -/
theorem groupsConcat_chars (gs : List SgfTree)
    (hg : ∀ g ∈ gs, ∀ x ∈ SgfTree.toSgf g, x ≠ '\n' ∧ x ≠ '\t') :
    ∀ x ∈ groupsConcat gs, x ≠ '\n' ∧ x ≠ '\t' := by
  induction gs with
  | nil => intro x hx; simp [groupsConcat] at hx
  | cons g gs2 ih =>
    intro x hx
    rw [show groupsConcat (g :: gs2) =
        ('(' :: ';' :: SgfTree.toSgf g ++ [')']) ++ groupsConcat gs2 from by
      simp [groupsConcat]] at hx
    rcases List.mem_append.mp hx with h1 | h2
    · rcases List.mem_cons.mp h1 with he | h1b
      · subst he; exact ⟨by decide, by decide⟩
      · rcases List.mem_cons.mp h1b with he | h1c
        · subst he; exact ⟨by decide, by decide⟩
        · rcases List.mem_append.mp h1c with hm | hm
          · exact hg g (List.mem_cons_self g gs2) x hm
          · simp only [List.mem_singleton] at hm
            subst hm; exact ⟨by decide, by decide⟩
    · exact ih (fun g2 hg2 => hg g2 (List.mem_cons_of_mem g hg2)) x h2

/-- Auxiliary: the serialization of a stable tree is newline- and
tab-free. -/
theorem toSgf_chars : ∀ (n : Nat) (c : SgfTree), sizeOf c ≤ n → StableInv c →
    ∀ x ∈ SgfTree.toSgf c, x ≠ '\n' ∧ x ≠ '\t' := by
  intro n
  induction n with
  | zero =>
    intro c hsz
    exact absurd hsz (by cases c with
      | mk d ch s =>
        simp only [SgfTree.mk.sizeOf_spec]
        omega)
  | succ m ih =>
    intro c hsz hc x hx
    obtain ⟨d, ch, s⟩ := c
    cases hc with
    | mk hclean hne hdata hch =>
      cases ch with
      | nil =>
        rw [show SgfTree.toSgf (SgfTree.mk d [] s) = s from by simp [SgfTree.toSgf]] at hx
        exact ⟨(hclean x hx).2.2.2.1, (hclean x hx).2.2.2.2⟩
      | cons c1 ch2 =>
        cases ch2 with
        | nil =>
          rw [show SgfTree.toSgf (SgfTree.mk d [c1] s) = s ++ ';' :: SgfTree.toSgf c1 from by
            simp [SgfTree.toSgf]] at hx
          rcases List.mem_append.mp hx with h1 | h2
          · exact ⟨(hclean x h1).2.2.2.1, (hclean x h1).2.2.2.2⟩
          · rcases List.mem_cons.mp h2 with he | hm
            · subst he; exact ⟨by decide, by decide⟩
            · have hsz1 : sizeOf c1 ≤ m := by
                have := sizeOf_child d [c1] s c1 (List.mem_cons_self c1 [])
                omega
              exact ih c1 hsz1 (hch c1 (List.mem_cons_self c1 [])) x hm
        | cons c2 cs2 =>
          rw [show SgfTree.toSgf (SgfTree.mk d (c1 :: c2 :: cs2) s) =
              s ++ groupsConcat (c1 :: c2 :: cs2) from by
            simp [SgfTree.toSgf, toSgfGroups_eq]] at hx
          rcases List.mem_append.mp hx with h1 | h2
          · exact ⟨(hclean x h1).2.2.2.1, (hclean x h1).2.2.2.2⟩
          · refine groupsConcat_chars (c1 :: c2 :: cs2) ?_ x h2
            intro g hg y hy
            have hszg : sizeOf g ≤ m := by
              have := sizeOf_child d (c1 :: c2 :: cs2) s g hg
              omega
            exact ih g hszg (hch g hg) y hy

/-- Auxiliary: a comma-join of newline- and tab-free strings is newline-
and tab-free. -/
theorem joinComma_chars : ∀ (l : List Str),
    (∀ x ∈ l, ∀ cc ∈ x, cc ≠ '\n' ∧ cc ≠ '\t') →
    ∀ cc ∈ joinComma l, cc ≠ '\n' ∧ cc ≠ '\t' := by
  intro l
  induction l with
  | nil => intro _ cc hcc; simp [joinComma] at hcc
  | cons x xs ih =>
    intro h cc hcc
    cases xs with
    | nil =>
      rw [show joinComma [x] = x from by simp [joinComma]] at hcc
      exact h x (List.mem_cons_self x []) cc hcc
    | cons y ys =>
      rw [show joinComma (x :: y :: ys) = x ++ ',' :: joinComma (y :: ys) from by
        simp [joinComma]] at hcc
      rcases List.mem_append.mp hcc with h1 | h2
      · exact h x (List.mem_cons_self x _) cc h1
      · rcases List.mem_cons.mp h2 with he | hm
        · subst he; exact ⟨by decide, by decide⟩
        · exact ih (fun z hz => h z (List.mem_cons_of_mem x hz)) cc hm

/-- Auxiliary: a non-empty comma-join of `(;…)` groups starts with `(` and
ends with `)`. -/
theorem joinCommaGroups_shape : ∀ (gs : List SgfTree) (g0 : SgfTree),
    ∃ mid : Str,
      joinComma ((g0 :: gs).map (fun c => '(' :: ';' :: SgfTree.toSgf c ++ [')'])) =
        '(' :: mid ++ [')'] := by
  intro gs
  induction gs with
  | nil =>
    intro g0
    refine ⟨';' :: SgfTree.toSgf g0, ?_⟩
    simp [joinComma]
  | cons g1 gs2 ih =>
    intro g0
    obtain ⟨mid2, hmid2⟩ := ih g1
    refine ⟨';' :: SgfTree.toSgf g0 ++ [')'] ++ ',' :: '(' :: mid2, ?_⟩
    rw [show ((g0 :: g1 :: gs2).map (fun c => '(' :: ';' :: SgfTree.toSgf c ++ [')'])) =
        ('(' :: ';' :: SgfTree.toSgf g0 ++ [')']) ::
          ((g1 :: gs2).map (fun c => '(' :: ';' :: SgfTree.toSgf c ++ [')'])) from by
      simp]
    cases hmap : (g1 :: gs2).map (fun c => '(' :: ';' :: SgfTree.toSgf c ++ [')']) with
    | nil => simp at hmap
    | cons z zs =>
      rw [show joinComma (('(' :: ';' :: SgfTree.toSgf g0 ++ [')']) :: z :: zs) =
          ('(' :: ';' :: SgfTree.toSgf g0 ++ [')']) ++ ',' :: joinComma (z :: zs) from by
        simp [joinComma]]
      rw [← hmap, hmid2]
      simp

/-- Auxiliary: cleanup is the identity on a newline- and tab-free string
wrapped in parentheses. -/
theorem sgfCleanup_shape (mid : Str) (hmid : ∀ x ∈ mid, x ≠ '\n' ∧ x ≠ '\t') :
    sgfCleanup ('(' :: mid ++ [')']) = '(' :: mid ++ [')'] := by
  have hchars : ∀ x ∈ ('(' :: mid ++ [')'] : Str), x ≠ '\n' ∧ x ≠ '\t' := by
    intro x hx
    rw [show ('(' :: mid ++ [')'] : Str) = '(' :: (mid ++ [')']) from by simp] at hx
    rcases List.mem_cons.mp hx with he | hm
    · subst he; exact ⟨by decide, by decide⟩
    · rcases List.mem_append.mp hm with h1 | h2
      · exact hmid x h1
      · simp only [List.mem_singleton] at h2
        subst h2; exact ⟨by decide, by decide⟩
  have htrim :
      ((('(' :: mid ++ [')'] : Str).dropWhile Char.isWhitespace).reverse.dropWhile
        Char.isWhitespace).reverse = '(' :: mid ++ [')'] := by
    rw [show ('(' :: mid ++ [')'] : Str) = '(' :: (mid ++ [')']) from by simp]
    rw [List.dropWhile_cons_of_neg (by decide)]
    rw [show ('(' :: (mid ++ [')']) : Str) = ('(' :: mid) ++ [')'] from by simp]
    rw [List.reverse_append]
    rw [show ([')'] : Str).reverse = [')'] from rfl]
    rw [show ([')'] : Str) ++ ('(' :: mid).reverse = ')' :: ('(' :: mid).reverse from by simp]
    rw [List.dropWhile_cons_of_neg (by decide)]
    rw [List.reverse_cons, List.reverse_reverse]
  unfold sgfCleanup
  rw [htrim]
  rw [List.filter_eq_self.mpr (fun a ha => by
    simp only [ne_eq, decide_not]
    simpa using (hchars a (List.mem_of_mem_filter ha)).2)]
  rw [List.filter_eq_self.mpr (fun a ha => by
    simp only [ne_eq, decide_not]
    simpa using (hchars a ha).1)]

/-- Auxiliary: scanning the root serialization of stable children from a
stack-free state appends them all to the current node; the junk commas only
affect the raw-text bookkeeping. -/
theorem scanRootGroups : ∀ (gs : List SgfTree), (∀ g ∈ gs, StableInv g) →
    ∀ (fr : Frame) (cs0 : Str),
    ∃ ds cs2,
      runScan (joinComma (gs.map (fun c => '(' :: ';' :: SgfTree.toSgf c ++ [')'])))
        ⟨[], fr, cs0⟩ = some ⟨[], ⟨ds, fr.children ++ gs⟩, cs2⟩ := by
  intro gs
  induction gs with
  | nil =>
    intro _ fr cs0
    refine ⟨fr.dataAsString, cs0, ?_⟩
    rw [show (List.map (fun c => '(' :: ';' :: SgfTree.toSgf c ++ [')'])
        ([] : List SgfTree)) = [] from rfl]
    rw [show joinComma [] = [] from rfl, runScan_nil]
    simp
  | cons g gs2 ih =>
    intro hg fr cs0
    cases gs2 with
    | nil =>
      refine ⟨cs0, cs0, ?_⟩
      rw [show joinComma ([g].map (fun c => '(' :: ';' :: SgfTree.toSgf c ++ [')'])) =
          '(' :: ';' :: SgfTree.toSgf g ++ [')'] from by simp [joinComma]]
      exact scanGroup g (hg g (List.mem_cons_self g [])) [] fr cs0
    | cons g1 gs3 =>
      rw [show joinComma ((g :: g1 :: gs3).map
            (fun c => '(' :: ';' :: SgfTree.toSgf c ++ [')'])) =
          ('(' :: ';' :: SgfTree.toSgf g ++ [')']) ++
            ',' :: joinComma ((g1 :: gs3).map
              (fun c => '(' :: ';' :: SgfTree.toSgf c ++ [')'])) from by
        simp [joinComma]]
      obtain ⟨ds, cs2, hds⟩ := ih (fun g2 hg2 => hg g2 (List.mem_cons_of_mem g hg2))
        ⟨cs0, fr.children ++ [g]⟩ (cs0 ++ [','])
      refine ⟨ds, cs2, ?_⟩
      rw [runScan_append, scanGroup g (hg g (List.mem_cons_self g _)) [] fr cs0,
        Option.some_bind, runScan_cons,
        scanStep_plain _ ',' (by decide) (by decide), Option.some_bind]
      rw [show (⟨[], ⟨cs0, fr.children ++ [g]⟩, cs0 ++ [','] ⟩ : ScanState) =
          ⟨(⟨[], ⟨cs0, fr.children ++ [g]⟩, cs0⟩ : ScanState).stack,
            (⟨[], ⟨cs0, fr.children ++ [g]⟩, cs0⟩ : ScanState).cur,
            (⟨[], ⟨cs0, fr.children ++ [g]⟩, cs0⟩ : ScanState).currentString ++ [','] ⟩
          from rfl] at hds
      rw [hds]
      simp

/-- C1 (amended): for every SGF text whose parse succeeds and contains no
empty node (every node's raw text is non-empty, which rules out `(;)`-style
nodes), re-parsing the serialization of the parsed tree yields a tree equal
to it by structure and properties (equal `toJson` projections; the raw text
of the root is bookkeeping junk that both sides ignore). -/
theorem C1_roundtrip_amended (s : Str) (t : SgfTree)
    (hp : SgfTree.parseSgf s = some t)
    (hnz : childrenNonempty (SgfTree.children t) = true) :
    ∃ t2, SgfTree.parseSgf (SgfTree.toSgfRoot t) = some t2 ∧
      SgfTree.toJson t2 = SgfTree.toJson t := by
  obtain ⟨hpinv, hdata⟩ := parseSgf_children_PInv s t hp
  obtain ⟨d0, ch, s0⟩ := t
  simp only [SgfTree.data] at hdata
  subst hdata
  simp only [SgfTree.children] at hpinv hnz
  have hstable : ∀ u ∈ ch, StableInv u := fun u hu =>
    pinv_to_stable (sizeOf u) u (Nat.le_refl _) (hpinv u hu)
      (childrenNonempty_mem ch hnz u hu)
  cases ch with
  | nil =>
    refine ⟨SgfTree.mk [] [] [], ?_, ?_⟩
    · rfl
    · simp [SgfTree.toJson]
  | cons c1 rest =>
    have hserchar : ∀ x ∈ SgfTree.toSgfRoot (SgfTree.mk [] (c1 :: rest) s0),
        x ≠ '\n' ∧ x ≠ '\t' := by
      unfold SgfTree.toSgfRoot
      refine joinComma_chars _ ?_
      intro x hx cc hcc
      obtain ⟨g, hgmem, rfl⟩ := List.mem_map.mp hx
      simp only [SgfTree.children] at hgmem
      rcases List.mem_cons.mp hcc with he | h2
      · subst he; exact ⟨by decide, by decide⟩
      · rcases List.mem_cons.mp h2 with he | h3
        · subst he; exact ⟨by decide, by decide⟩
        · rcases List.mem_append.mp h3 with hm | hm
          · exact toSgf_chars (sizeOf g) g (Nat.le_refl _) (hstable g hgmem) cc hm
          · simp only [List.mem_singleton] at hm
            subst hm; exact ⟨by decide, by decide⟩
    obtain ⟨mid, hmid⟩ := joinCommaGroups_shape rest c1
    have htsr : SgfTree.toSgfRoot (SgfTree.mk [] (c1 :: rest) s0) = '(' :: mid ++ [')'] := by
      unfold SgfTree.toSgfRoot
      simp only [SgfTree.children]
      exact hmid
    have hmidchars : ∀ x ∈ mid, x ≠ '\n' ∧ x ≠ '\t' := by
      intro x hx
      refine hserchar x ?_
      rw [htsr]
      rw [show ('(' :: mid ++ [')'] : Str) = '(' :: (mid ++ [')']) from by simp]
      exact List.mem_cons_of_mem _ (List.mem_append.mpr (Or.inl hx))
    have hcleanid : sgfCleanup (SgfTree.toSgfRoot (SgfTree.mk [] (c1 :: rest) s0)) =
        SgfTree.toSgfRoot (SgfTree.mk [] (c1 :: rest) s0) := by
      rw [htsr]
      exact sgfCleanup_shape mid hmidchars
    obtain ⟨ds, cs2, hscan⟩ := scanRootGroups (c1 :: rest) hstable ⟨[], []⟩ []
    refine ⟨SgfTree.mk [] (c1 :: rest) ds, ?_, ?_⟩
    · unfold SgfTree.parseSgf
      rw [hcleanid]
      unfold SgfTree.parseBranches
      rw [show SgfTree.toSgfRoot (SgfTree.mk [] (c1 :: rest) s0) =
          joinComma ((c1 :: rest).map (fun c => '(' :: ';' :: SgfTree.toSgf c ++ [')']))
          from by unfold SgfTree.toSgfRoot; simp [SgfTree.children]]
      rw [hscan]
      simp
    · simp [SgfTree.toJson]

/-- Witness for the amended C1 at `"(;B[aa];W[bb])"`: the parse succeeds,
every node is non-empty, and the round trip preserves the `toJson`
projection. -/
theorem C1_roundtrip_amended_witness :
    SgfTree.parseSgf "(;B[aa];W[bb])".toList = some c1WitnessTree ∧
    childrenNonempty (SgfTree.children c1WitnessTree) = true ∧
    ∃ t2, SgfTree.parseSgf (SgfTree.toSgfRoot c1WitnessTree) = some t2 ∧
      SgfTree.toJson t2 = SgfTree.toJson c1WitnessTree :=
  ⟨rfl, rfl, C1_roundtrip_amended "(;B[aa];W[bb])".toList c1WitnessTree rfl rfl⟩

/-- C1 counterexample: the SGF text `"(;(;B[aa]))"` (well-formed by the
spec's grammar: an empty node followed by one game tree) parses to a tree
whose level-one node is empty with a single child; its serialization is
`"(;;B[aa])"`, which re-parses to a tree with the empty node swallowed, so
the round trip changes the structure and properties. -/
theorem C1_counterexample :
    SgfTree.parseSgf "(;(;B[aa]))".toList = some cexTree0 ∧
    SgfTree.parseSgf (SgfTree.toSgfRoot cexTree0) = some cexTree1 ∧
    SgfTree.toJson cexTree1 ≠ SgfTree.toJson cexTree0 :=
  ⟨rfl, rfl, fun h => absurd (congrArg jsonSize h) (by decide)⟩
